import Mathlib

/-!
Shallow embedding of the Online-File-Drive core: version lifecycle with
bounded-history eviction, storage-quota admission, folder move/delete over a
parent-pointer hierarchy, capability-based public sharing, and the generic
metadata update.  Each definition is translated from the corresponding
JavaScript source file; timestamps (`createdAt`/`updatedAt` strings produced
by `new Date()`) are omitted wherever no algorithm inspects them.
-/

/-- Version metadata object built by `versionService.createVersionMetadata`:
`{version, s3Key, size, createdAt}`.  The `createdAt` timestamp is never read
by any algorithm (eviction is by array position, not by timestamp) and is
omitted from the embedding. -/
structure VersionMeta where
  version : Nat
  s3Key : String
  size : Int
  deriving Repr, DecidableEq

/-- Bound on retained versions, from `versionService.js`:
`parseInt(process.env.MAX_VERSIONS) || 3`. -/
def MAX_VERSIONS : Nat := 3

/-- Translation of `VersionService.addVersion`: copy the array, push the new
version; if the result is longer than `MAX_VERSIONS`, keep only the last
`MAX_VERSIONS` entries (`versions.slice(-MAX_VERSIONS)`) and report
`versions[0]` as `deletedVersion`; otherwise `deletedVersion` is `null`. -/
def addVersion (currentVersions : List VersionMeta) (newVersion : VersionMeta) :
    List VersionMeta × Option VersionMeta :=
  let versions := currentVersions ++ [newVersion]
  if versions.length > MAX_VERSIONS then
    (versions.drop (versions.length - MAX_VERSIONS), versions.head?)
  else
    (versions, none)

/-- Translation of `VersionService.findVersion`:
`versions.find(v => v.version === parseInt(versionNumber))`. -/
def findVersion (versions : List VersionMeta) (versionNumber : Nat) : Option VersionMeta :=
  versions.find? (fun v => v.version == versionNumber)

/-- Translation of `FileService.buildS3Key`: the storage key is the string
interpolation of userId, fileId, version and filename separated as
`userId/fileId/vN/filename`. -/
def buildS3Key (userId fileId : String) (version : Nat) (filename : String) : String :=
  userId ++ "/" ++ fileId ++ "/v" ++ toString version ++ "/" ++ filename

/-- File metadata record as created by the upload route and stored by the
metadata service (timestamp strings omitted). -/
structure FileMeta where
  fileId : String
  userId : String
  filename : String
  mimeType : String
  size : Int
  s3Key : String
  folderId : Option String
  isPublic : Bool
  currentVersion : Nat
  versions : List VersionMeta
  deriving Repr, DecidableEq

/-- Metadata payload built by `POST /api/files/upload` (`fileRoutes.js`):
version 1, a single version record, key built by `buildS3Key(uid, fid, 1, name)`. -/
def uploadFile (userId fileId filename mimeType : String) (size : Int)
    (folderId : Option String) (isPublic : Bool) : FileMeta :=
  let s3Key := buildS3Key userId fileId 1 filename
  { fileId := fileId
    userId := userId
    filename := filename
    mimeType := mimeType
    size := size
    s3Key := s3Key
    folderId := folderId
    isPublic := isPublic
    currentVersion := 1
    versions := [{ version := 1, s3Key := s3Key, size := size }] }

/-- One replacement upload request (the parts of `req.file` the PUT handler
reads). -/
structure UploadReq where
  filename : String
  mimeType : String
  size : Int
  deriving Repr, DecidableEq

/-- Metadata effect of `PUT /api/files/:fileId` (`fileRoutes.js`): new version
number is `currentVersion + 1`, new key from `buildS3Key`, versions managed by
`addVersion`, and the top-level filename/mimeType/size/s3Key/currentVersion
fields are overwritten. -/
def updateFile (m : FileMeta) (r : UploadReq) : FileMeta :=
  let newVersion := m.currentVersion + 1
  let s3Key := buildS3Key m.userId m.fileId newVersion r.filename
  let managed := addVersion m.versions { version := newVersion, s3Key := s3Key, size := r.size }
  { m with
    filename := r.filename
    mimeType := r.mimeType
    size := r.size
    s3Key := s3Key
    currentVersion := newVersion
    versions := managed.1 }

/-- Sequentially apply replacement uploads (the no-concurrency upload
sequence of the spec). -/
def applyUpdates (m : FileMeta) : List UploadReq → FileMeta
  | [] => m
  | r :: rs => applyUpdates (updateFile m r) rs

/-- Result of `AuthClient.checkStorageQuota`: either the thrown
`INSUFFICIENT_STORAGE` error or success carrying `availableSpace`. -/
inductive QuotaResult where
  | insufficientStorage
  | ok (availableSpace : Int)
  deriving Repr, DecidableEq

/-- Translation of `AuthClient.checkStorageQuota` on the fetched user fields:
`availableSpace = storageQuota - storageUsed`; fail exactly when
`availableSpace < requiredSpace`. -/
def checkStorageQuota (storageQuota storageUsed requiredSpace : Int) : QuotaResult :=
  let availableSpace := storageQuota - storageUsed
  if availableSpace < requiredSpace then QuotaResult.insufficientStorage
  else QuotaResult.ok availableSpace

/-- Quota charge decided by the PUT handler (`fileRoutes.js` lines 117-121):
`sizeDifference = size - metadata.size`; `checkStorageQuota` is called only
when `sizeDifference > 0`, and then for exactly `sizeDifference`. -/
def replaceQuotaCharge (oldSize newSize : Int) : Option Int :=
  let sizeDifference := newSize - oldSize
  if sizeDifference > 0 then some sizeDifference else none

/-- Reachable-state invariant of a file record under the upload/replace
routes: a non-empty version list of length at most `MAX_VERSIONS`, whose
version numbers are the contiguous block ending at `currentVersion`, whose
newest entry records the top-level key and size, and whose top-level key is
derived by `buildS3Key` from the current version and filename. -/
structure GoodMeta (m : FileMeta) : Prop where
  len_pos : 0 < m.versions.length
  len_le : m.versions.length ≤ MAX_VERSIONS
  len_le_cv : m.versions.length ≤ m.currentVersion
  nums : m.versions.map VersionMeta.version =
    List.range' (m.currentVersion + 1 - m.versions.length) m.versions.length
  last_eq : m.versions.getLast? =
    some { version := m.currentVersion, s3Key := m.s3Key, size := m.size }
  key_eq : m.s3Key = buildS3Key m.userId m.fileId m.currentVersion m.filename

theorem addVersion_eq_of_le (vs : List VersionMeta) (v : VersionMeta)
    (h : vs.length + 1 ≤ MAX_VERSIONS) : addVersion vs v = (vs ++ [v], none) := by
  unfold addVersion
  rw [if_neg]
  simp only [List.length_append, List.length_cons, List.length_nil]
  omega

theorem addVersion_eq_of_gt (vs : List VersionMeta) (v : VersionMeta)
    (h : MAX_VERSIONS < vs.length + 1) :
    addVersion vs v = ((vs ++ [v]).drop (vs.length + 1 - MAX_VERSIONS), (vs ++ [v]).head?) := by
  unfold addVersion
  rw [if_pos]
  · simp only [List.length_append, List.length_cons, List.length_nil]
  · simp only [List.length_append, List.length_cons, List.length_nil]
    omega

theorem updateFile_versions (m : FileMeta) (r : UploadReq) :
    (updateFile m r).versions =
      (addVersion m.versions
        { version := m.currentVersion + 1
          s3Key := buildS3Key m.userId m.fileId (m.currentVersion + 1) r.filename
          size := r.size }).1 := rfl

theorem goodMeta_uploadFile (userId fileId filename mimeType : String) (size : Int)
    (folderId : Option String) (isPublic : Bool) :
    GoodMeta (uploadFile userId fileId filename mimeType size folderId isPublic) := by
  refine ⟨?_, ?_, ?_, ?_, ?_, ?_⟩ <;>
    simp [uploadFile, MAX_VERSIONS]

theorem range'_snoc_eq {s n t : Nat} (h : s + n = t) :
    List.range' s n ++ [t] = List.range' s (n + 1) := by
  subst h
  rw [List.range'_1_concat]

theorem goodMeta_updateFile {m : FileMeta} (hm : GoodMeta m) (r : UploadReq) :
    GoodMeta (updateFile m r) := by
  obtain ⟨pos, hle, lecv, nums, hlast, hkey⟩ := hm
  have hcv : (updateFile m r).currentVersion = m.currentVersion + 1 := rfl
  have hkey' : (updateFile m r).s3Key =
      buildS3Key m.userId m.fileId (m.currentVersion + 1) r.filename := rfl
  set nv : VersionMeta :=
    { version := m.currentVersion + 1
      s3Key := buildS3Key m.userId m.fileId (m.currentVersion + 1) r.filename
      size := r.size } with hnv
  have hver : (updateFile m r).versions = (addVersion m.versions nv).1 := rfl
  by_cases h : m.versions.length + 1 ≤ MAX_VERSIONS
  · -- no eviction: the new list is the appended list
    have hvers : (updateFile m r).versions = m.versions ++ [nv] := by
      rw [hver, addVersion_eq_of_le m.versions nv h]
    refine ⟨?_, ?_, ?_, ?_, ?_, ?_⟩
    · rw [hvers]; simp
    · rw [hvers]; simpa using h
    · rw [hvers, hcv]
      simp only [List.length_append, List.length_cons, List.length_nil]
      omega
    · rw [hvers, hcv]
      simp only [List.map_append, List.map_cons, List.map_nil, List.length_append,
        List.length_cons, List.length_nil, Nat.zero_add, nums]
      have h1 : m.currentVersion + 1 + 1 - (m.versions.length + 1) =
          m.currentVersion + 1 - m.versions.length := by omega
      rw [h1, range'_snoc_eq (show m.currentVersion + 1 - m.versions.length +
            m.versions.length = m.currentVersion + 1 by omega)]
    · rw [hvers, hcv, hkey']
      have hsz : (updateFile m r).size = r.size := rfl
      rw [hsz, List.getLast?_concat]
    · rw [hkey', hcv]
      rfl
  · -- eviction: length was MAX_VERSIONS, the head is dropped
    push_neg at h
    have hlen3 : m.versions.length = MAX_VERSIONS := by omega
    have hdrop : (m.versions ++ [nv]).drop (m.versions.length + 1 - MAX_VERSIONS) =
        m.versions.drop 1 ++ [nv] := by
      have h1 : m.versions.length + 1 - MAX_VERSIONS = 1 := by omega
      rw [h1, List.drop_append_of_le_length (by omega)]
    have hvers : (updateFile m r).versions = m.versions.drop 1 ++ [nv] := by
      rw [hver, addVersion_eq_of_gt m.versions nv h]
      exact hdrop
    have hdlen : (m.versions.drop 1).length = MAX_VERSIONS - 1 := by
      simp [hlen3]
    refine ⟨?_, ?_, ?_, ?_, ?_, ?_⟩
    · rw [hvers]; simp
    · rw [hvers]
      simp only [List.length_append, List.length_cons, List.length_nil, hdlen]
      simp [MAX_VERSIONS]
    · rw [hvers, hcv]
      simp only [List.length_append, List.length_cons, List.length_nil, hdlen]
      simp only [MAX_VERSIONS] at hlen3 ⊢
      omega
    · rw [hvers, hcv]
      simp only [List.map_append, List.map_cons, List.map_nil, List.length_append,
        List.length_cons, List.length_nil, Nat.zero_add, List.map_drop, nums, hdlen]
      rw [List.drop_one, List.tail_range']
      rw [range'_snoc_eq (show m.currentVersion + 1 - m.versions.length + 1 +
            (m.versions.length - 1) = m.currentVersion + 1 by omega)]
      have e1 : m.currentVersion + 1 - m.versions.length + 1 =
          m.currentVersion + 1 + 1 - (MAX_VERSIONS - 1 + 1) := by omega
      have e2 : m.versions.length - 1 + 1 = MAX_VERSIONS - 1 + 1 := by omega
      rw [e1, e2]
    · rw [hvers, hcv, hkey']
      have hsz : (updateFile m r).size = r.size := rfl
      rw [hsz, List.getLast?_concat]
    · rw [hkey', hcv]
      rfl

theorem goodMeta_applyUpdates {m : FileMeta} (hm : GoodMeta m) (rs : List UploadReq) :
    GoodMeta (applyUpdates m rs) := by
  induction rs generalizing m with
  | nil => exact hm
  | cons r rs ih => exact ih (goodMeta_updateFile hm r)

theorem applyUpdates_currentVersion (m : FileMeta) (rs : List UploadReq) :
    (applyUpdates m rs).currentVersion = m.currentVersion + rs.length := by
  induction rs generalizing m with
  | nil => rfl
  | cons r rs ih =>
    have : (updateFile m r).currentVersion = m.currentVersion + 1 := rfl
    simp [applyUpdates, ih, this]
    omega

theorem updateFile_versions_length (m : FileMeta) (r : UploadReq) :
    (updateFile m r).versions.length = min (m.versions.length + 1) MAX_VERSIONS := by
  have hver : (updateFile m r).versions =
      (addVersion m.versions
        { version := m.currentVersion + 1
          s3Key := buildS3Key m.userId m.fileId (m.currentVersion + 1) r.filename
          size := r.size }).1 := rfl
  by_cases h : m.versions.length + 1 ≤ MAX_VERSIONS
  · rw [hver, addVersion_eq_of_le _ _ h]
    simp
    omega
  · push_neg at h
    rw [hver, addVersion_eq_of_gt _ _ h]
    simp
    omega

theorem applyUpdates_versions_length (m : FileMeta) (rs : List UploadReq)
    (h : m.versions.length ≤ MAX_VERSIONS) :
    (applyUpdates m rs).versions.length = min (m.versions.length + rs.length) MAX_VERSIONS := by
  induction rs generalizing m with
  | nil =>
    simp [applyUpdates]
    omega
  | cons r rs ih =>
    have h1 := updateFile_versions_length m r
    have h2 := ih (m := updateFile m r) (by rw [h1]; omega)
    simp only [applyUpdates, h2, h1, List.length_cons]
    omega

/-- C1: for every sequence of k successive uploads of the same file (one
initial upload via POST /upload followed by k-1 sequential replacements via
PUT /:fileId), the stored versions list has length min(k, MAX_VERSIONS) with
MAX_VERSIONS = 3, and the newest retained versionNumber (the last entry, the
list being oldest-first) equals k, as does currentVersion. -/
theorem C1_upload_sequence (userId fileId filename mimeType : String) (size : Int)
    (folderId : Option String) (isPublic : Bool) (rs : List UploadReq) :
    MAX_VERSIONS = 3 ∧
    (applyUpdates (uploadFile userId fileId filename mimeType size folderId isPublic)
        rs).versions.length = min (rs.length + 1) MAX_VERSIONS ∧
    ((applyUpdates (uploadFile userId fileId filename mimeType size folderId isPublic)
        rs).versions.map VersionMeta.version).getLast? = some (rs.length + 1) ∧
    (applyUpdates (uploadFile userId fileId filename mimeType size folderId isPublic)
        rs).currentVersion = rs.length + 1 := by
  have hg := goodMeta_applyUpdates
    (goodMeta_uploadFile userId fileId filename mimeType size folderId isPublic) rs
  have hcv := applyUpdates_currentVersion
    (uploadFile userId fileId filename mimeType size folderId isPublic) rs
  have hcv1 : (uploadFile userId fileId filename mimeType size folderId isPublic).currentVersion
      = 1 := rfl
  rw [hcv1] at hcv
  have hlen1 : (uploadFile userId fileId filename mimeType size
      folderId isPublic).versions.length = 1 := rfl
  refine ⟨rfl, ?_, ?_, by omega⟩
  · have h := applyUpdates_versions_length
      (uploadFile userId fileId filename mimeType size folderId isPublic) rs
      (by rw [hlen1]; simp [MAX_VERSIONS])
    rw [h, hlen1]
    omega
  · rw [List.getLast?_map, hg.last_eq]
    simp
    omega

/-- C3: after the initial upload and after every sequential replacement, the
file record satisfies the invariants: the versions list has length at most
MAX_VERSIONS, and currentVersion equals the maximum versionNumber appearing
in the versions list (it is attained by some entry and bounds all entries). -/
theorem C3_version_invariants (userId fileId filename mimeType : String) (size : Int)
    (folderId : Option String) (isPublic : Bool) (rs : List UploadReq) :
    (applyUpdates (uploadFile userId fileId filename mimeType size folderId isPublic)
        rs).versions.length ≤ MAX_VERSIONS ∧
    (∃ v ∈ (applyUpdates (uploadFile userId fileId filename mimeType size folderId isPublic)
        rs).versions,
      v.version = (applyUpdates (uploadFile userId fileId filename mimeType size folderId
        isPublic) rs).currentVersion) ∧
    ∀ v ∈ (applyUpdates (uploadFile userId fileId filename mimeType size folderId isPublic)
        rs).versions,
      v.version ≤ (applyUpdates (uploadFile userId fileId filename mimeType size folderId
        isPublic) rs).currentVersion := by
  have hg := goodMeta_applyUpdates
    (goodMeta_uploadFile userId fileId filename mimeType size folderId isPublic) rs
  refine ⟨hg.len_le, ⟨_, List.mem_of_getLast?_eq_some hg.last_eq, rfl⟩, ?_⟩
  intro v hv
  have hmem : v.version ∈ (applyUpdates (uploadFile userId fileId filename mimeType size
      folderId isPublic) rs).versions.map VersionMeta.version :=
    List.mem_map_of_mem VersionMeta.version hv
  rw [hg.nums] at hmem
  rw [List.mem_range'_1] at hmem
  have := hg.len_le_cv
  omega

/-- C2: addVersion (the appendVersion of the spec) returns no evicted version
exactly when the appended list still fits within MAX_VERSIONS; when it
overflows, exactly the element at index 0 (the oldest by insertion order) is
removed and returned as evicted, and that element has the smallest
versionNumber of all versions present at eviction time.  The hypotheses say
the input list is a file's version list: within the MAX_VERSIONS bound, with
version numbers increasing in insertion order up to the appended version. -/
theorem C2_fifo_eviction (vs : List VersionMeta) (nv : VersionMeta)
    (hlen : vs.length ≤ MAX_VERSIONS)
    (hsorted : (vs ++ [nv]).Pairwise (fun a b => a.version < b.version)) :
    ((addVersion vs nv).2 = none ↔ vs.length + 1 ≤ MAX_VERSIONS) ∧
    (MAX_VERSIONS < vs.length + 1 →
      (addVersion vs nv).1 = (vs ++ [nv]).drop 1 ∧
      (addVersion vs nv).2 = (vs ++ [nv]).head? ∧
      ∀ e, (addVersion vs nv).2 = some e → ∀ v ∈ vs ++ [nv], e.version ≤ v.version) := by
  by_cases h : vs.length + 1 ≤ MAX_VERSIONS
  · rw [addVersion_eq_of_le vs nv h]
    exact ⟨by simpa using h, fun hc => absurd h (by omega)⟩
  · push_neg at h
    rw [addVersion_eq_of_gt vs nv h]
    have hd1 : vs.length + 1 - MAX_VERSIONS = 1 := by omega
    have hne : vs ≠ [] := by
      intro hnil
      rw [hnil] at h
      simp [MAX_VERSIONS] at h
    obtain ⟨a, vs', rfl⟩ := List.exists_cons_of_ne_nil hne
    refine ⟨by simp only [List.length_cons] at h ⊢; simp; omega, fun _ => ⟨by rw [hd1], rfl, ?_⟩⟩
    intro e he v hv
    simp only [List.cons_append, List.head?_cons, Option.some.injEq] at he
    subst he
    rw [List.cons_append, List.pairwise_cons] at hsorted
    rcases List.mem_cons.mp hv with rfl | hv'
    · exact Nat.le_refl _
    · exact Nat.le_of_lt (hsorted.1 v hv')

/-- Witness for C2 at a concrete overflowing input: a full list of three
versions 1..3 and a new version 4; the evicted version is version 1. -/
theorem C2_fifo_eviction_witness :
    (([{ version := 1, s3Key := "k1", size := 1 }, { version := 2, s3Key := "k2", size := 1 },
        { version := 3, s3Key := "k3", size := 1 }] : List VersionMeta).length ≤ MAX_VERSIONS) ∧
    (([{ version := 1, s3Key := "k1", size := 1 }, { version := 2, s3Key := "k2", size := 1 },
        { version := 3, s3Key := "k3", size := 1 }] ++
          [{ version := 4, s3Key := "k4", size := 2 }] : List VersionMeta).Pairwise
        (fun a b => a.version < b.version)) ∧
    ((addVersion [{ version := 1, s3Key := "k1", size := 1 },
        { version := 2, s3Key := "k2", size := 1 }, { version := 3, s3Key := "k3", size := 1 }]
        { version := 4, s3Key := "k4", size := 2 }).2 = none ↔ 3 + 1 ≤ MAX_VERSIONS) :=
  ⟨by decide, by decide,
    (C2_fifo_eviction _ _ (by decide) (by decide)).1⟩

/-- C4: checkStorageQuota fails with the insufficient-storage error exactly
when quotaBytes - usedBytes < additionalBytes, and succeeds when the
remaining space equals the requested amount; on a version replacement the
check is performed only when the new size strictly exceeds the prior current
version's size, and then only for the difference. -/
theorem C4_quota_check (storageQuota storageUsed requiredSpace oldSize newSize : Int) :
    (checkStorageQuota storageQuota storageUsed requiredSpace =
        QuotaResult.insufficientStorage ↔ storageQuota - storageUsed < requiredSpace) ∧
    (storageQuota - storageUsed = requiredSpace →
      checkStorageQuota storageQuota storageUsed requiredSpace =
        QuotaResult.ok requiredSpace) ∧
    ((replaceQuotaCharge oldSize newSize).isSome ↔ oldSize < newSize) ∧
    (oldSize < newSize → replaceQuotaCharge oldSize newSize = some (newSize - oldSize)) ∧
    (newSize ≤ oldSize → replaceQuotaCharge oldSize newSize = none) := by
  have hq : checkStorageQuota storageQuota storageUsed requiredSpace =
      if storageQuota - storageUsed < requiredSpace then QuotaResult.insufficientStorage
      else QuotaResult.ok (storageQuota - storageUsed) := rfl
  have hr : replaceQuotaCharge oldSize newSize =
      if newSize - oldSize > 0 then some (newSize - oldSize) else none := rfl
  rw [hq, hr]
  refine ⟨?_, ?_, ?_, ?_, ?_⟩
  · split <;> simp <;> omega
  · intro he
    rw [if_neg (by omega), he]
  · split <;> simp <;> omega
  · intro hlt
    rw [if_pos (by omega)]
  · intro hle
    rw [if_neg (by omega)]

/-- Witness for C4 at concrete numbers: remaining space 6 equals the request,
so the check succeeds; a replacement from size 5 to size 9 charges 4. -/
theorem C4_quota_check_witness :
    ((10 : Int) - 4 = 6 ∧ checkStorageQuota 10 4 6 = QuotaResult.ok 6) ∧
    ((5 : Int) < 9 ∧ replaceQuotaCharge 5 9 = some 4) :=
  ⟨⟨by decide, (C4_quota_check 10 4 6 5 9).2.1 (by decide)⟩,
    ⟨by decide, (C4_quota_check 10 4 6 5 9).2.2.2.1 (by decide)⟩⟩

/-- Folder record held in the mock metadata service's folderStore: the fields
the move/delete algorithms read.  `parentId = "root"` is the sentinel for a
top-level folder; it is never a stored folderId. -/
structure Folder where
  folderId : String
  userId : String
  name : String
  parentId : String
  deriving Repr, DecidableEq

/-- Lookup in the folderStore keyed by folderId (`folderStore.get(id)`).  A
JavaScript Map has duplicate-free keys; list-based theorems assume this via a
Nodup hypothesis where it matters. -/
def findFolder (store : List Folder) (folderId : String) : Option Folder :=
  store.find? (fun f => f.folderId == folderId)

/-- Loop of `isDescendant(folderId, targetId)` in `mock-metadata-service.js`:
start from `folderStore.get(targetId)`; while the current folder exists,
return true if its parentId equals folderId, else step to the parent.  The
JavaScript while-loop is unbounded; here `fuel` counts loop iterations and
`none` means the loop has not finished within `fuel` iterations. -/
def isDescendantLoop (store : List Folder) (folderId : String) :
    Nat → Option Folder → Option Bool
  | _, none => some false
  | 0, some _ => none
  | n + 1, some f =>
    if f.parentId = folderId then some true
    else isDescendantLoop store folderId n (findFolder store f.parentId)

/-- Fueled translation of `isDescendant(folderId, targetId)`. -/
def isDescendant (fuel : Nat) (store : List Folder) (folderId targetId : String) :
    Option Bool :=
  isDescendantLoop store folderId fuel (findFolder store targetId)

/-- Semantic contents of the parent-chain walk: starting at folder id `x`,
the chain of stored parents reaches a folder whose parentId is `anc` (i.e.
`x` lies strictly below `anc`, or below a folder claiming `anc` as parent). -/
inductive ReachesUp (store : List Folder) (anc : String) : String → Prop where
  | base (x : String) (f : Folder) (hf : findFolder store x = some f)
      (hp : f.parentId = anc) : ReachesUp store anc x
  | step (x : String) (f : Folder) (hf : findFolder store x = some f)
      (hr : ReachesUp store anc f.parentId) : ReachesUp store anc x

theorem not_reachesUp_of_find_none {store : List Folder} {anc x : String}
    (hf : findFolder store x = none) : ¬ ReachesUp store anc x := by
  intro h
  cases h with
  | base _ f hf' _ => rw [hf] at hf'; exact Option.noConfusion hf'
  | step _ f hf' _ => rw [hf] at hf'; exact Option.noConfusion hf'

theorem reachesUp_iff_of_find {store : List Folder} {anc x : String} {f : Folder}
    (hf : findFolder store x = some f) :
    ReachesUp store anc x ↔ (f.parentId = anc ∨ ReachesUp store anc f.parentId) := by
  constructor
  · intro h
    cases h with
    | base _ g hg hp =>
      rw [hf] at hg
      cases hg
      exact Or.inl hp
    | step _ g hg hr =>
      rw [hf] at hg
      cases hg
      exact Or.inr hr
  · rintro (hp | hr)
    · exact ReachesUp.base x f hf hp
    · exact ReachesUp.step x f hf hr

theorem isDescendantLoop_sound (store : List Folder) (fid : String) :
    ∀ (n : Nat) (f : Folder) (b : Bool),
      isDescendantLoop store fid n (some f) = some b →
      (b = true ↔ (f.parentId = fid ∨ ReachesUp store fid f.parentId)) := by
  intro n
  induction n with
  | zero => intro f b h; exact absurd h (by simp [isDescendantLoop])
  | succ n ih =>
    intro f b h
    by_cases hp : f.parentId = fid
    · simp only [isDescendantLoop, if_pos hp] at h
      cases h
      simp [hp]
    · simp only [isDescendantLoop, if_neg hp] at h
      cases hfind : findFolder store f.parentId with
      | none =>
        rw [hfind] at h
        simp only [isDescendantLoop] at h
        cases h
        simp only [Bool.false_eq_true, false_iff]
        rintro (hc | hc)
        · exact hp hc
        · exact not_reachesUp_of_find_none hfind hc
      | some g =>
        rw [hfind] at h
        rw [ih g b h, reachesUp_iff_of_find hfind]
        simp [hp]

theorem isDescendant_sound {fuel : Nat} {store : List Folder} {fid tid : String} {b : Bool}
    (h : isDescendant fuel store fid tid = some b) :
    b = true ↔ ReachesUp store fid tid := by
  unfold isDescendant at h
  cases hfind : findFolder store tid with
  | none =>
    rw [hfind] at h
    simp only [isDescendantLoop] at h
    cases h
    simp only [Bool.false_eq_true, false_iff]
    exact not_reachesUp_of_find_none hfind
  | some f =>
    rw [hfind] at h
    rw [isDescendantLoop_sound store fid fuel f b h, reachesUp_iff_of_find hfind]

theorem isDescendantLoop_terminates (store : List Folder) (fid : String)
    (rank : Folder → Nat)
    (hrank : ∀ f ∈ store, ∀ g ∈ store, g.folderId = f.parentId → rank g < rank f) :
    ∀ (n : Nat) (f : Folder), f ∈ store → rank f < n →
      ∃ b, isDescendantLoop store fid n (some f) = some b := by
  intro n
  induction n with
  | zero => intro f _ h; omega
  | succ n ih =>
    intro f hf hr
    by_cases hp : f.parentId = fid
    · exact ⟨true, by simp [isDescendantLoop, hp]⟩
    · cases hfind : findFolder store f.parentId with
      | none =>
        exact ⟨false, by simp [isDescendantLoop, hp, hfind]⟩
      | some g =>
        have hg : g ∈ store := List.mem_of_find?_eq_some hfind
        have hgid : g.folderId = f.parentId := by
          have := List.find?_some hfind
          simpa using this
        have hlt : rank g < rank f := hrank f hf g hg hgid
        obtain ⟨b, hb⟩ := ih g hg (by omega)
        exact ⟨b, by simp only [isDescendantLoop, if_neg hp, hfind]; exact hb⟩

/-- A two-folder store with an acyclic parent chain: B at top level, A inside
B. -/
def chainStore : List Folder :=
  [{ folderId := "B", userId := "u1", name := "b", parentId := "root" },
   { folderId := "A", userId := "u1", name := "a", parentId := "B" }]

/-- Rank function witnessing the acyclicity of chainStore. -/
def chainRank (f : Folder) : Nat := if f.folderId = "A" then 1 else 0

/-- A two-folder store whose parent pointers form the cycle A to B to A,
creatable because folder creation stores an arbitrary client payload. -/
def cycStore : List Folder :=
  [{ folderId := "A", userId := "u1", name := "a", parentId := "B" },
   { folderId := "B", userId := "u1", name := "b", parentId := "A" }]

/-- C6 (amended): on every folder store whose parent pointers admit a rank
decreasing from child to parent and bounded by the store size - i.e. whose
parent chains are acyclic - the isDescendant walk terminates within the total
number of folders iterations, stopping at the sentinel, a missing parent, or
a match.  On a store containing a parent-pointer cycle the unbounded
JavaScript while-loop need not terminate (see the counterexample). -/
theorem C6_isDescendant_bounded_termination (store : List Folder) (fid tid : String)
    (rank : Folder → Nat)
    (hrank : ∀ f ∈ store, ∀ g ∈ store, g.folderId = f.parentId → rank g < rank f)
    (hbound : ∀ f ∈ store, rank f < store.length) :
    ∃ b, isDescendant store.length store fid tid = some b := by
  unfold isDescendant
  cases hfind : findFolder store tid with
  | none =>
    refine ⟨false, ?_⟩
    cases store.length <;> rfl
  | some f =>
    exact isDescendantLoop_terminates store fid rank hrank store.length f
      (List.mem_of_find?_eq_some hfind) (hbound f (List.mem_of_find?_eq_some hfind))

/-- Witness for the amended C6: the acyclic chainStore with its explicit rank
terminates within 2 iterations. -/
theorem C6_isDescendant_bounded_termination_witness :
    (∀ f ∈ chainStore, ∀ g ∈ chainStore, g.folderId = f.parentId → chainRank g < chainRank f) ∧
    (∀ f ∈ chainStore, chainRank f < chainStore.length) ∧
    ∃ b, isDescendant chainStore.length chainStore "B" "A" = some b :=
  ⟨by decide, by decide,
    C6_isDescendant_bounded_termination chainStore "B" "A" chainRank (by decide) (by decide)⟩

/-- C6 counterexample: on the cyclic two-folder store, the walk of
isDescendant("C", "A") has not terminated after as many iterations as there
are folders (2), nor after 100 iterations - the parent chain cycles between A
and B and never reaches the sentinel or a match, so the claimed bound (and
termination itself) fails on a cyclic parent-pointer structure. -/
theorem C6_cycle_divergence :
    isDescendant cycStore.length cycStore "C" "A" = none ∧
    isDescendant 100 cycStore "C" "A" = none := by
  constructor <;> decide

/-- Rejection reasons of the folder-move endpoint (HTTP 404/400/400/403). -/
inductive MoveError where
  | folderNotFound
  | selfMove
  | intoChild
  | targetForbidden
  deriving Repr, DecidableEq

/-- Parent-pointer update performed on success by the move endpoint:
`folder.parentId = targetFolderId; folderStore.set(folderId, folder)`. -/
def setParent (store : List Folder) (folderId targetId : String) : List Folder :=
  store.map (fun f => if f.folderId = folderId then { f with parentId := targetId } else f)

/-- Translation of `POST /api/folders/:folderId/move` from
`mock-metadata-service.js`: 404 if the folder is missing; 400 on self-move;
400 if the target is a descendant of the folder (cycle protection); if the
target is not the root sentinel, 403 when it is missing or owned by another
user; otherwise set the folder's parentId to the target.  The outer `none`
models the request never answering because the unbounded cycle-check loop
diverges. -/
def moveFolder (fuel : Nat) (store : List Folder) (folderId targetFolderId : String) :
    Option (Except MoveError (List Folder)) :=
  match findFolder store folderId with
  | none => some (Except.error MoveError.folderNotFound)
  | some folder =>
    if folderId = targetFolderId then some (Except.error MoveError.selfMove)
    else
      match isDescendant fuel store folderId targetFolderId with
      | none => none
      | some true => some (Except.error MoveError.intoChild)
      | some false =>
        if targetFolderId ≠ "root" then
          match findFolder store targetFolderId with
          | none => some (Except.error MoveError.targetForbidden)
          | some target =>
            if target.userId ≠ folder.userId then
              some (Except.error MoveError.targetForbidden)
            else some (Except.ok (setParent store folderId targetFolderId))
        else some (Except.ok (setParent store folderId targetFolderId))

theorem findFolder_setParent_ne (store : List Folder) (folderId targetId g : String)
    (hg : g ≠ folderId) :
    findFolder (setParent store folderId targetId) g = findFolder store g := by
  induction store with
  | nil => rfl
  | cons f fs ih =>
    by_cases hf : f.folderId = folderId
    · have hid : ({ f with parentId := targetId } : Folder).folderId = f.folderId := rfl
      have hpf : ¬(f.folderId == g) = true := by
        simp only [beq_iff_eq]
        intro hc
        exact hg (by rw [← hc, hf])
      simp only [setParent, List.map_cons, if_pos hf, findFolder, List.find?]
      rw [hid]
      simp only [findFolder, setParent] at ih
      rcases hb : (f.folderId == g) with _ | _
      · exact ih
      · exact absurd hb hpf
    · simp only [setParent, List.map_cons, if_neg hf, findFolder, List.find?]
      simp only [findFolder, setParent] at ih
      rcases hb : (f.folderId == g) with _ | _
      · exact ih
      · rfl

theorem findFolder_setParent_self (store : List Folder) (folderId targetId : String)
    (folder : Folder) (hf : findFolder store folderId = some folder) :
    findFolder (setParent store folderId targetId) folderId =
      some { folder with parentId := targetId } := by
  induction store with
  | nil => exact absurd hf (by simp [findFolder])
  | cons f fs ih =>
    by_cases hb : f.folderId = folderId
    · have hfold : f = folder := by
        have := List.find?_cons_of_pos (p := fun x => x.folderId == folderId) fs
          (by simpa using hb)
        rw [findFolder, this] at hf
        exact Option.some.inj hf
      subst hfold
      have hid : ({ f with parentId := targetId } : Folder).folderId = f.folderId := rfl
      simp only [setParent, List.map_cons, if_pos hb, findFolder]
      rw [List.find?_cons_of_pos _ (by rw [hid]; simpa using hb)]
    · have hstep : findFolder (f :: fs) folderId = findFolder fs folderId := by
        simp only [findFolder]
        rw [List.find?_cons_of_neg _ (by simpa using hb)]
      rw [hstep] at hf
      simp only [setParent, List.map_cons, if_neg hb, findFolder]
      rw [List.find?_cons_of_neg _ (by simpa using hb)]
      have := ih hf
      simpa only [findFolder, setParent] using this

/-- C5: moveFolder(F, T) is rejected when F equals T; rejected when T is a
descendant of F (so a cycle is never created); rejected when T is not the
root sentinel and T is missing or T's owner differs from F's owner; and
otherwise it sets F's parentId to T while changing no other folder. -/
theorem C5_moveFolder_guards (fuel : Nat) (store : List Folder)
    (folderId targetFolderId : String) :
    (folderId = targetFolderId →
      ∀ st, moveFolder fuel store folderId targetFolderId ≠ some (Except.ok st)) ∧
    (ReachesUp store folderId targetFolderId →
      ∀ st, moveFolder fuel store folderId targetFolderId ≠ some (Except.ok st)) ∧
    (targetFolderId ≠ "root" → findFolder store targetFolderId = none →
      ∀ st, moveFolder fuel store folderId targetFolderId ≠ some (Except.ok st)) ∧
    (targetFolderId ≠ "root" →
      ∀ target folder, findFolder store targetFolderId = some target →
        findFolder store folderId = some folder → target.userId ≠ folder.userId →
        ∀ st, moveFolder fuel store folderId targetFolderId ≠ some (Except.ok st)) ∧
    (∀ folder, findFolder store folderId = some folder →
      folderId ≠ targetFolderId →
      isDescendant fuel store folderId targetFolderId = some false →
      (targetFolderId = "root" ∨
        ∃ target, findFolder store targetFolderId = some target ∧
          target.userId = folder.userId) →
      moveFolder fuel store folderId targetFolderId =
        some (Except.ok (setParent store folderId targetFolderId)) ∧
      (∀ g, g ≠ folderId →
        findFolder (setParent store folderId targetFolderId) g = findFolder store g) ∧
      findFolder (setParent store folderId targetFolderId) folderId =
        some { folder with parentId := targetFolderId }) := by
  refine ⟨?_, ?_, ?_, ?_, ?_⟩
  · intro heq st hc
    cases hfind : findFolder store folderId with
    | none => simp [moveFolder, hfind] at hc
    | some folder => simp [moveFolder, hfind, if_pos heq] at hc
  · intro hreach st hc
    cases hfind : findFolder store folderId with
    | none => simp [moveFolder, hfind] at hc
    | some folder =>
      by_cases heq : folderId = targetFolderId
      · simp [moveFolder, hfind, if_pos heq] at hc
      · cases hdesc : isDescendant fuel store folderId targetFolderId with
        | none => simp [moveFolder, hfind, if_neg heq, hdesc] at hc
        | some b =>
          cases b with
          | true => simp [moveFolder, hfind, if_neg heq, hdesc] at hc
          | false =>
            have hiff : (false = true) ↔ ReachesUp store folderId targetFolderId :=
              isDescendant_sound hdesc
            simp only [Bool.false_eq_true, false_iff] at hiff
            exact hiff hreach
  · intro hroot hnone st hc
    cases hfind : findFolder store folderId with
    | none => simp [moveFolder, hfind] at hc
    | some folder =>
      by_cases heq : folderId = targetFolderId
      · simp [moveFolder, hfind, if_pos heq] at hc
      · cases hdesc : isDescendant fuel store folderId targetFolderId with
        | none => simp [moveFolder, hfind, if_neg heq, hdesc] at hc
        | some b =>
          cases b with
          | true => simp [moveFolder, hfind, if_neg heq, hdesc] at hc
          | false =>
            simp [moveFolder, hfind, if_neg heq, hdesc, if_pos hroot, hnone] at hc
  · intro hroot target folder htfind hfind hneq st hc
    by_cases heq : folderId = targetFolderId
    · simp [moveFolder, hfind, if_pos heq] at hc
    · cases hdesc : isDescendant fuel store folderId targetFolderId with
      | none => simp [moveFolder, hfind, if_neg heq, hdesc] at hc
      | some b =>
        cases b with
        | true => simp [moveFolder, hfind, if_neg heq, hdesc] at hc
        | false =>
          simp [moveFolder, hfind, if_neg heq, hdesc, if_pos hroot, htfind,
            if_pos hneq] at hc
  · intro folder hfind hne hdesc hok
    have hmain : moveFolder fuel store folderId targetFolderId =
        some (Except.ok (setParent store folderId targetFolderId)) := by
      by_cases hroot : targetFolderId = "root"
      · subst hroot
        simp only [moveFolder, hfind, if_neg hne, hdesc]
        rw [if_neg]
        intro hcon
        exact hcon rfl
      · rcases hok with hroot' | ⟨target, htfind, huid⟩
        · exact absurd hroot' hroot
        · simp only [moveFolder, hfind, if_neg hne, hdesc, if_pos hroot, htfind]
          rw [if_neg]
          intro hcon
          exact hcon huid
    exact ⟨hmain, fun g hg => findFolder_setParent_ne store folderId targetFolderId g hg,
      findFolder_setParent_self store folderId targetFolderId folder hfind⟩

/-- Witness for C5 at a concrete input: in the acyclic chainStore, moving
folder A to the root succeeds and sets only A's parentId. -/
theorem C5_moveFolder_guards_witness :
    findFolder chainStore "A" =
      some { folderId := "A", userId := "u1", name := "a", parentId := "B" } ∧
    ("A" : String) ≠ "root" ∧
    isDescendant chainStore.length chainStore "A" "root" = some false ∧
    moveFolder chainStore.length chainStore "A" "root" =
      some (Except.ok (setParent chainStore "A" "root")) := by
  refine ⟨by decide, by decide, by decide, ?_⟩
  exact (((C5_moveFolder_guards chainStore.length chainStore "A" "root").2.2.2.2)
    { folderId := "A", userId := "u1", name := "a", parentId := "B" }
    (by decide) (by decide) (by decide) (Or.inl rfl)).1

/-- Inner recursion of `getAllDescendants` over a work list of child folders:
for the head folder emit its id, its own descendants (computed over the
folders whose parentId is its id), then the remaining siblings.  The
JavaScript recursion is unbounded and diverges on a parent cycle; here `fuel`
decreases on every recursive call (into a subtree and across siblings) and
`none` means the recursion did not complete within the given fuel. -/
def getAllDescendantsList : Nat → List Folder → List Folder → Option (List String)
  | 0, _, _ => none
  | _ + 1, _, [] => some []
  | n + 1, store, f :: fs =>
    match getAllDescendantsList n store (store.filter fun g => g.parentId == f.folderId) with
    | none => none
    | some sub =>
      match getAllDescendantsList n store fs with
      | none => none
      | some rest => some (f.folderId :: (sub ++ rest))

/-- Fueled translation of `getAllDescendants(folderId)` from
`mock-metadata-service.js`: iterate the whole store; for every folder whose
parentId equals folderId, emit its id followed by its own descendants. -/
def getAllDescendants (fuel : Nat) (store : List Folder) (folderId : String) :
    Option (List String) :=
  getAllDescendantsList fuel store (store.filter fun f => f.parentId == folderId)

/-- Translation of `DELETE /api/folders/:folderId` from
`mock-metadata-service.js`: compute `all = [folderId, ...descendants]`;
delete every file record whose folderId (null mapped to the sentinel "root")
is in `all` - each such record holds all of its version entries, which are
removed with it - then delete every folder record whose id is in `all`.
`none` models the request never answering because the descendant recursion
diverges on a parent cycle. -/
def deleteFolderCascade (fuel : Nat) (files : List FileMeta) (folders : List Folder)
    (folderId : String) : Option (List FileMeta × List Folder) :=
  match getAllDescendants fuel folders folderId with
  | none => none
  | some descs =>
    let all := folderId :: descs
    some
      (files.filter (fun fl => !(all.contains (fl.folderId.getD "root"))),
       folders.filter (fun f => !(all.contains f.folderId)))

theorem findFolder_of_mem {store : List Folder}
    (hnodup : (store.map Folder.folderId).Nodup) {f : Folder} (hf : f ∈ store) :
    findFolder store f.folderId = some f := by
  induction store with
  | nil => exact absurd hf (List.not_mem_nil f)
  | cons g gs ih =>
    rcases List.mem_cons.mp hf with rfl | hmem
    · simp only [findFolder]
      rw [List.find?_cons_of_pos _ (by simp)]
    · have hne : g.folderId ≠ f.folderId := by
        intro hc
        have : f.folderId ∈ gs.map Folder.folderId := List.mem_map_of_mem _ hmem
        rw [List.map_cons, List.nodup_cons] at hnodup
        exact hnodup.1 (hc ▸ this)
      simp only [findFolder]
      rw [List.find?_cons_of_neg _ (by simpa using hne)]
      have := ih (by rw [List.map_cons, List.nodup_cons] at hnodup; exact hnodup.2) hmem
      simpa [findFolder] using this

theorem reachesUp_trans {store : List Folder} {a b x : String}
    (hbx : ReachesUp store b x) (hab : ReachesUp store a b) : ReachesUp store a x := by
  induction hbx with
  | base y f hf hp => exact ReachesUp.step y f hf (hp ▸ hab)
  | step y f hf _ ih => exact ReachesUp.step y f hf ih

theorem gadList_sound (store : List Folder)
    (hnodup : (store.map Folder.folderId).Nodup) :
    ∀ (n : Nat) (l : List Folder) res, (∀ f ∈ l, f ∈ store) →
      getAllDescendantsList n store l = some res →
      ∀ x ∈ res, ∃ f, f ∈ l ∧ (x = f.folderId ∨ ReachesUp store f.folderId x) := by
  intro n
  induction n with
  | zero =>
    intro l res _ h
    exact absurd h (by simp [getAllDescendantsList])
  | succ n ih =>
    intro l res hl h x hx
    cases l with
    | nil =>
      simp only [getAllDescendantsList] at h
      cases h
      exact absurd hx (List.not_mem_nil x)
    | cons f fs =>
      simp only [getAllDescendantsList] at h
      cases hsub : getAllDescendantsList n store
          (store.filter fun g => g.parentId == f.folderId) with
      | none => rw [hsub] at h; exact absurd h (by simp)
      | some sub =>
        rw [hsub] at h
        cases hrest : getAllDescendantsList n store fs with
        | none => rw [hrest] at h; exact absurd h (by simp)
        | some rest =>
          rw [hrest] at h
          have hres : res = f.folderId :: (sub ++ rest) := (Option.some.inj h).symm
          subst hres
          rcases List.mem_cons.mp hx with rfl | hx'
          · exact ⟨f, List.mem_cons_self f fs, Or.inl rfl⟩
          · rcases List.mem_append.mp hx' with hxs | hxr
            · obtain ⟨g, hgl, hcase⟩ := ih _ sub
                (fun g hg => List.mem_of_mem_filter hg) hsub x hxs
              have hgs : g ∈ store := List.mem_of_mem_filter hgl
              have hgp : g.parentId = f.folderId := by
                have := List.of_mem_filter hgl
                simpa using this
              have hbase : ReachesUp store f.folderId g.folderId :=
                ReachesUp.base g.folderId g (findFolder_of_mem hnodup hgs) hgp
              refine ⟨f, List.mem_cons_self f fs, Or.inr ?_⟩
              rcases hcase with rfl | hr
              · exact hbase
              · exact reachesUp_trans hr hbase
            · obtain ⟨g, hg, hcase⟩ := ih fs rest
                (fun g hg => hl g (List.mem_cons_of_mem f hg)) hrest x hxr
              exact ⟨g, List.mem_cons_of_mem f hg, hcase⟩

theorem gad_sound (store : List Folder)
    (hnodup : (store.map Folder.folderId).Nodup) (fuel : Nat) (fid : String)
    (res : List String) (h : getAllDescendants fuel store fid = some res) :
    ∀ x ∈ res, ReachesUp store fid x := by
  intro x hx
  obtain ⟨f, hfl, hcase⟩ := gadList_sound store hnodup fuel _ res
    (fun f hf => List.mem_of_mem_filter hf) h x hx
  have hfs : f ∈ store := List.mem_of_mem_filter hfl
  have hfp : f.parentId = fid := by
    have := List.of_mem_filter hfl
    simpa using this
  have hbase : ReachesUp store fid f.folderId :=
    ReachesUp.base f.folderId f (findFolder_of_mem hnodup hfs) hfp
  rcases hcase with rfl | hr
  · exact hbase
  · exact reachesUp_trans hr hbase

theorem gadList_mem_child (store : List Folder) :
    ∀ (n : Nat) (l : List Folder) res, getAllDescendantsList n store l = some res →
      ∀ f ∈ l, f.folderId ∈ res := by
  intro n
  induction n with
  | zero =>
    intro l res h
    exact absurd h (by simp [getAllDescendantsList])
  | succ n ih =>
    intro l res h f hf
    cases l with
    | nil => exact absurd hf (List.not_mem_nil f)
    | cons g gs =>
      simp only [getAllDescendantsList] at h
      cases hsub : getAllDescendantsList n store
          (store.filter fun x => x.parentId == g.folderId) with
      | none => rw [hsub] at h; exact absurd h (by simp)
      | some sub =>
        rw [hsub] at h
        cases hrest : getAllDescendantsList n store gs with
        | none => rw [hrest] at h; exact absurd h (by simp)
        | some rest =>
          rw [hrest] at h
          have hres : res = g.folderId :: (sub ++ rest) := (Option.some.inj h).symm
          subst hres
          rcases List.mem_cons.mp hf with rfl | hmem
          · exact List.mem_cons_self _ _
          · exact List.mem_cons_of_mem _
              (List.mem_append_right sub (ih gs rest hrest f hmem))

theorem gadList_closed (store : List Folder) :
    ∀ (n : Nat) (l : List Folder) res, getAllDescendantsList n store l = some res →
      ∀ c ∈ res, ∀ f ∈ store, f.parentId = c → f.folderId ∈ res := by
  intro n
  induction n with
  | zero =>
    intro l res h
    exact absurd h (by simp [getAllDescendantsList])
  | succ n ih =>
    intro l res h c hc f hfs hfp
    cases l with
    | nil =>
      simp only [getAllDescendantsList] at h
      cases h
      exact absurd hc (List.not_mem_nil c)
    | cons g gs =>
      simp only [getAllDescendantsList] at h
      cases hsub : getAllDescendantsList n store
          (store.filter fun x => x.parentId == g.folderId) with
      | none => rw [hsub] at h; exact absurd h (by simp)
      | some sub =>
        rw [hsub] at h
        cases hrest : getAllDescendantsList n store gs with
        | none => rw [hrest] at h; exact absurd h (by simp)
        | some rest =>
          rw [hrest] at h
          have hres : res = g.folderId :: (sub ++ rest) := (Option.some.inj h).symm
          subst hres
          rcases List.mem_cons.mp hc with rfl | hc'
          · -- c is the head child's id: f is among its filtered children
            have hfchild : f ∈ store.filter fun x => x.parentId == g.folderId :=
              List.mem_filter.mpr ⟨hfs, by simpa using hfp⟩
            exact List.mem_cons_of_mem _ (List.mem_append_left rest
              (gadList_mem_child store n _ sub hsub f hfchild))
          · rcases List.mem_append.mp hc' with hcs | hcr
            · exact List.mem_cons_of_mem _ (List.mem_append_left rest
                (ih _ sub hsub c hcs f hfs hfp))
            · exact List.mem_cons_of_mem _ (List.mem_append_right sub
                (ih gs rest hrest c hcr f hfs hfp))

theorem gad_complete (store : List Folder) {fid x : String}
    (hr : ReachesUp store fid x) :
    ∀ n res, getAllDescendants n store fid = some res → x ∈ res := by
  induction hr with
  | base y f hf hp =>
    intro n res h
    have hfs : f ∈ store := List.mem_of_find?_eq_some hf
    have hfy : f.folderId = y := by
      have := List.find?_some hf
      simpa using this
    have hfchild : f ∈ store.filter fun g => g.parentId == fid :=
      List.mem_filter.mpr ⟨hfs, by simpa using hp⟩
    exact hfy ▸ gadList_mem_child store n _ res h f hfchild
  | step y f hf _ ih =>
    intro n res h
    have hps : f.parentId ∈ res := ih n res h
    have hfs : f ∈ store := List.mem_of_find?_eq_some hf
    have hfy : f.folderId = y := by
      have := List.find?_some hf
      simpa using this
    exact hfy ▸ gadList_closed store n _ res h f.parentId hps f hfs rfl

/-- C7: the folder-delete cascade removes exactly the folder records in
{F} ∪ descendants(F) and exactly the file records whose folderId (null
mapping to the root sentinel) is F or one of its descendants - each removed
file record carries all of its version entries, which disappear with it -
and keeps every other folder and file record, including root-level files,
unchanged in the store.  Hypotheses: folder ids are duplicate-free (JS Map
keys), the root sentinel is not a stored folder, F is not the sentinel, and
the descendant recursion finishes within the given fuel (it diverges on a
parent cycle). -/
theorem C7_deleteFolder_exactness (fuel : Nat) (files : List FileMeta)
    (folders : List Folder) (folderId : String) (descs : List String)
    (hnodup : (folders.map Folder.folderId).Nodup)
    (hroot : findFolder folders "root" = none)
    (hrootid : folderId ≠ "root")
    (hgad : getAllDescendants fuel folders folderId = some descs) :
    deleteFolderCascade fuel files folders folderId =
      some
        (files.filter (fun fl => !((folderId :: descs).contains (fl.folderId.getD "root"))),
         folders.filter (fun f => !((folderId :: descs).contains f.folderId))) ∧
    (∀ f ∈ folders,
      f ∈ folders.filter (fun f => !((folderId :: descs).contains f.folderId)) ↔
        ¬(f.folderId = folderId ∨ ReachesUp folders folderId f.folderId)) ∧
    (∀ fl ∈ files,
      fl ∈ files.filter
          (fun fl => !((folderId :: descs).contains (fl.folderId.getD "root"))) ↔
        ¬(fl.folderId.getD "root" = folderId ∨
            ReachesUp folders folderId (fl.folderId.getD "root"))) ∧
    (∀ fl ∈ files, fl.folderId = none →
      fl ∈ files.filter
        (fun fl => !((folderId :: descs).contains (fl.folderId.getD "root")))) := by
  have hmem_iff : ∀ x : String,
      x ∈ folderId :: descs ↔ (x = folderId ∨ ReachesUp folders folderId x) := by
    intro x
    constructor
    · intro hx
      rcases List.mem_cons.mp hx with rfl | hxd
      · exact Or.inl rfl
      · exact Or.inr (gad_sound folders hnodup fuel folderId descs hgad x hxd)
    · rintro (rfl | hr)
      · exact List.mem_cons_self _ _
      · exact List.mem_cons_of_mem _ (gad_complete folders hr fuel descs hgad)
  have hcond : ∀ x : String,
      (!((folderId :: descs).contains x)) = true ↔
        ¬(x = folderId ∨ ReachesUp folders folderId x) := by
    intro x
    rw [Bool.not_eq_true', ← Bool.not_eq_true]
    constructor
    · intro hnc hor
      exact hnc (by simpa [List.contains, List.elem_iff] using (hmem_iff x).mpr hor)
    · intro hnor hc
      exact hnor ((hmem_iff x).mp (by simpa [List.contains, List.elem_iff] using hc))
  refine ⟨?_, ?_, ?_, ?_⟩
  · simp only [deleteFolderCascade, hgad]
  · intro f hf
    rw [List.mem_filter]
    constructor
    · intro ⟨_, hc⟩
      exact (hcond f.folderId).mp hc
    · intro hn
      exact ⟨hf, (hcond f.folderId).mpr hn⟩
  · intro fl hfl
    rw [List.mem_filter]
    constructor
    · intro ⟨_, hc⟩
      exact (hcond (fl.folderId.getD "root")).mp hc
    · intro hn
      exact ⟨hfl, (hcond (fl.folderId.getD "root")).mpr hn⟩
  · intro fl hfl hnone
    rw [List.mem_filter]
    refine ⟨hfl, (hcond (fl.folderId.getD "root")).mpr ?_⟩
    rw [hnone]
    rintro (hc | hc)
    · exact hrootid (by simpa using hc.symm)
    · exact not_reachesUp_of_find_none hroot (by simpa using hc)

/-- Scenario-C folder store: folder P at top level, folder Q inside P. -/
def scFolders : List Folder :=
  [{ folderId := "P", userId := "u1", name := "p", parentId := "root" },
   { folderId := "Q", userId := "u1", name := "q", parentId := "P" }]

/-- Scenario-C files: f1 in P, f2 in Q, f3 at the root (folderId null). -/
def scFiles : List FileMeta :=
  [{ fileId := "f1", userId := "u1", filename := "a", mimeType := "t", size := 1,
     s3Key := "k1", folderId := some "P", isPublic := false, currentVersion := 1,
     versions := [{ version := 1, s3Key := "k1", size := 1 }] },
   { fileId := "f2", userId := "u1", filename := "b", mimeType := "t", size := 1,
     s3Key := "k2", folderId := some "Q", isPublic := false, currentVersion := 1,
     versions := [{ version := 1, s3Key := "k2", size := 1 }] },
   { fileId := "f3", userId := "u1", filename := "c", mimeType := "t", size := 1,
     s3Key := "k3", folderId := none, isPublic := false, currentVersion := 1,
     versions := [{ version := 1, s3Key := "k3", size := 1 }] }]

/-- Witness for C7 on the spec's Scenario C: deleting P removes P, Q, f1 and
f2 (with their version entries) and keeps exactly the root-level file f3. -/
theorem C7_deleteFolder_exactness_witness :
    getAllDescendants 3 scFolders "P" = some ["Q"] ∧
    deleteFolderCascade 3 scFiles scFolders "P" =
      some
        ([{ fileId := "f3", userId := "u1", filename := "c", mimeType := "t", size := 1,
            s3Key := "k3", folderId := none, isPublic := false, currentVersion := 1,
            versions := [{ version := 1, s3Key := "k3", size := 1 }] }], []) :=
  ⟨by decide,
    ((C7_deleteFolder_exactness 3 scFiles scFolders "P" ["Q"] (by decide) (by decide)
        (by decide) (by decide)).1).trans (by decide)⟩

/-- Payload embedded by `POST /share` (share-service lambda) in the signed
JWT at issuance: fileId, the file's current filename, its currentVersion and
its owner at issue time; expiry is handled by the JWT library and is not a
payload field here. -/
structure ShareToken where
  fileId : String
  filename : String
  version : Nat
  userId : String
  deriving Repr, DecidableEq

/-- Token minted by `POST /share` from the metadata fetched at issuance. -/
def issueShareToken (m : FileMeta) : ShareToken :=
  { fileId := m.fileId, filename := m.filename, version := m.currentVersion,
    userId := m.userId }

/-- Storage key derived by `GET /share/{publicId}` from the decoded token
fields only: the template `userId/fileId/v{version}/{filename}`. -/
def shareRedeemKey (t : ShareToken) : String :=
  t.userId ++ "/" ++ t.fileId ++ "/v" ++ toString t.version ++ "/" ++ t.filename

theorem mem_drop_one_of_getLast? {α : Type} {l : List α} {a : α}
    (h : l.getLast? = some a) (hlen : 2 ≤ l.length) : a ∈ l.drop 1 := by
  cases l with
  | nil => simp at h
  | cons x xs =>
    cases xs with
    | nil => simp at hlen
    | cons y ys =>
      rw [List.getLast?_cons_cons] at h
      simpa using List.mem_of_getLast?_eq_some h

theorem findVersion_eq_of_sorted (vs : List VersionMeta)
    (hs : (vs.map VersionMeta.version).Pairwise (· < ·))
    {r : VersionMeta} (hr : r ∈ vs) : findVersion vs r.version = some r := by
  induction vs with
  | nil => exact absurd hr (List.not_mem_nil r)
  | cons h t ih =>
    rw [List.map_cons, List.pairwise_cons] at hs
    rcases List.mem_cons.mp hr with rfl | hmem
    · simp only [findVersion]
      rw [List.find?_cons_of_pos _ (by simp)]
    · have hlt : h.version < r.version :=
        hs.1 r.version (List.mem_map_of_mem VersionMeta.version hmem)
      simp only [findVersion]
      rw [List.find?_cons_of_neg _ (by simp; omega)]
      have := ih hs.2 hmem
      simpa [findVersion] using this

theorem currentRec_mem_updateFile {m : FileMeta} (hm : GoodMeta m) (r : UploadReq) :
    ({ version := m.currentVersion, s3Key := m.s3Key, size := m.size } : VersionMeta) ∈
      (updateFile m r).versions := by
  obtain ⟨pos, hle, lecv, nums, hlast, hkey⟩ := hm
  set nv : VersionMeta :=
    { version := m.currentVersion + 1
      s3Key := buildS3Key m.userId m.fileId (m.currentVersion + 1) r.filename
      size := r.size } with hnv
  have hver : (updateFile m r).versions = (addVersion m.versions nv).1 := rfl
  by_cases h : m.versions.length + 1 ≤ MAX_VERSIONS
  · rw [hver, addVersion_eq_of_le _ _ h]
    exact List.mem_append_left _ (List.mem_of_getLast?_eq_some hlast)
  · push_neg at h
    have hlen3 : m.versions.length = MAX_VERSIONS := by omega
    have h1 : m.versions.length + 1 - MAX_VERSIONS = 1 := by omega
    rw [hver, addVersion_eq_of_gt _ _ h]
    simp only [h1]
    rw [List.drop_append_of_le_length (by omega)]
    exact List.mem_append_left _
      (mem_drop_one_of_getLast? hlast (by rw [hlen3]; simp [MAX_VERSIONS]))

/-- C8: a share issued against version v embeds ownerId, fileId, v and the
filename in the token at issuance; redemption derives the storage key from
those embedded fields only (the template userId/fileId/v{v}/{filename}), not
from the file's current metadata, so after the file is updated to version
v+1 the redemption still resolves to version v's storage key - which is
still the key recorded for version v in the updated metadata. -/
theorem C8_share_pinned_to_version {m : FileMeta} (hm : GoodMeta m) (r : UploadReq) :
    shareRedeemKey (issueShareToken m) =
      buildS3Key m.userId m.fileId m.currentVersion m.filename ∧
    shareRedeemKey (issueShareToken m) = m.s3Key ∧
    (updateFile m r).currentVersion = m.currentVersion + 1 ∧
    findVersion (updateFile m r).versions m.currentVersion =
      some { version := m.currentVersion, s3Key := m.s3Key, size := m.size } := by
  have hm' := goodMeta_updateFile hm r
  have hkeyeq : shareRedeemKey (issueShareToken m) =
      buildS3Key m.userId m.fileId m.currentVersion m.filename := rfl
  refine ⟨hkeyeq, hkeyeq.trans hm.key_eq.symm, rfl, ?_⟩
  have hsorted : ((updateFile m r).versions.map VersionMeta.version).Pairwise (· < ·) := by
    rw [hm'.nums]
    exact List.pairwise_lt_range' _ _
  exact findVersion_eq_of_sorted _ hsorted (currentRec_mem_updateFile hm r)

/-- Witness for C8: share file f1 at version 1, then replace it; the token
key still resolves to version 1's stored key u1/f1/v1/a.txt. -/
theorem C8_share_pinned_to_version_witness :
    shareRedeemKey (issueShareToken (uploadFile "u1" "f1" "a.txt" "t" 1 none false)) =
      "u1/f1/v1/a.txt" ∧
    findVersion (updateFile (uploadFile "u1" "f1" "a.txt" "t" 1 none false)
        { filename := "b.txt", mimeType := "t", size := 2 }).versions 1 =
      some { version := 1, s3Key := "u1/f1/v1/a.txt", size := 1 } :=
  ⟨((C8_share_pinned_to_version (goodMeta_uploadFile "u1" "f1" "a.txt" "t" 1 none false)
      { filename := "b.txt", mimeType := "t", size := 2 }).2.1).trans (by decide),
   ((C8_share_pinned_to_version (goodMeta_uploadFile "u1" "f1" "a.txt" "t" 1 none false)
      { filename := "b.txt", mimeType := "t", size := 2 }).2.2.2).trans (by decide)⟩

/-- Persisted share-index record `{publicId, fileId, ownerId, createdAt}`
written by `POST /share`. -/
structure ShareRecord where
  publicId : String
  fileId : String
  ownerId : String
  createdAt : Nat
  deriving Repr, DecidableEq

/-- Outcome of `GET /share/{publicId}`: 404 when the publicId is not in the
persisted index, 401 when no token is supplied, 403 when the token does not
verify, and a 302 redirect carrying the derived storage key on success. -/
inductive RedeemResult where
  | notFound
  | missingToken
  | forbidden
  | redirect (key : String)
  deriving Repr, DecidableEq

/-- Translation of `GET /share/{publicId}` (share-service lambda): first look
the publicId up in the persisted index and answer 404 when absent; then
require a token (401) and verify it - `verify` stands for `jwt.verify`'s
signature-and-expiry check, answering 403 on failure - and only then derive
the storage key from the decoded token fields and redirect. -/
def redeemShare (index : List ShareRecord) (publicId : String)
    (token : Option ShareToken) (verify : ShareToken → Bool) : RedeemResult :=
  match index.find? (fun s => s.publicId == publicId) with
  | none => RedeemResult.notFound
  | some _ =>
    match token with
    | none => RedeemResult.missingToken
    | some t =>
      if verify t then RedeemResult.redirect (shareRedeemKey t)
      else RedeemResult.forbidden

/-- C9: both redemption checks are mandatory and neither substitutes for the
other: the result is NotFound whenever the publicId is absent from the
persisted index (whatever the token, even one that verifies); it is
Forbidden whenever the publicId exists but token verification fails; and a
redirect (presigned fetch) is issued exactly when the publicId exists, a
token is present and it verifies, with the key derived from that token. -/
theorem C9_redeem_requires_both_checks (index : List ShareRecord) (publicId : String)
    (token : Option ShareToken) (verify : ShareToken → Bool) :
    (index.find? (fun s => s.publicId == publicId) = none →
      redeemShare index publicId token verify = RedeemResult.notFound) ∧
    (∀ s, index.find? (fun s => s.publicId == publicId) = some s →
      ∀ t, token = some t → verify t = false →
        redeemShare index publicId token verify = RedeemResult.forbidden) ∧
    (∀ key, redeemShare index publicId token verify = RedeemResult.redirect key ↔
      (∃ s t, index.find? (fun s => s.publicId == publicId) = some s ∧
        token = some t ∧ verify t = true ∧ key = shareRedeemKey t)) := by
  refine ⟨?_, ?_, ?_⟩
  · intro hnone
    simp [redeemShare, hnone]
  · intro s hs t ht hv
    simp [redeemShare, hs, ht, hv]
  · intro key
    cases hfind : index.find? (fun s => s.publicId == publicId) with
    | none =>
      simp [redeemShare, hfind]
    | some s =>
      cases token with
      | none => simp [redeemShare, hfind]
      | some t =>
        by_cases hv : verify t
        · simp only [redeemShare, hfind, if_pos hv]
          constructor
          · intro h
            exact ⟨s, t, rfl, rfl, hv, (RedeemResult.redirect.inj h).symm⟩
          · rintro ⟨s', t', _, ht', _, rfl⟩
            rw [Option.some.inj ht']
        · simp only [redeemShare, hfind, if_neg hv]
          constructor
          · intro h
            exact absurd h (by simp)
          · rintro ⟨s', t', _, ht', hv', _⟩
            rw [← Option.some.inj ht'] at hv'
            exact absurd hv' hv

/-- Share-index record used by the C9 witness. -/
def share1 : ShareRecord :=
  { publicId := "p1", fileId := "f1", ownerId := "u1", createdAt := 0 }

/-- Token used by the C9 witness. -/
def token1 : ShareToken :=
  { fileId := "f1", filename := "a", version := 1, userId := "u1" }

/-- Witness for C9: an empty index yields NotFound even for a token the
verifier accepts; with the record present and a failing verifier the result
is Forbidden. -/
theorem C9_redeem_requires_both_checks_witness :
    (([] : List ShareRecord).find? (fun s => s.publicId == "p1") = none ∧
      redeemShare [] "p1" (some token1) (fun _ => true) = RedeemResult.notFound) ∧
    (([share1] : List ShareRecord).find? (fun s => s.publicId == "p1") = some share1 ∧
      redeemShare [share1] "p1" (some token1) (fun _ => false) =
        RedeemResult.forbidden) :=
  ⟨⟨by decide,
    (C9_redeem_requires_both_checks [] "p1" (some token1) (fun _ => true)).1 (by decide)⟩,
   ⟨by decide,
    (C9_redeem_requires_both_checks [share1] "p1" (some token1)
      (fun _ => false)).2.1 share1 (by decide) token1 rfl rfl⟩⟩

/-- Stored metadata record of the DynamoDB-backed metadata service, with the
derived filenameLower and the timestamp attributes (opaque strings here). -/
structure MetadataRecord where
  fileId : String
  userId : String
  filename : String
  filenameLower : String
  mimeType : String
  size : Int
  folderId : Option String
  isPublic : Bool
  s3Key : String
  s3Bucket : String
  currentVersion : Nat
  versions : List VersionMeta
  createdAt : String
  updatedAt : String
  deriving Repr, DecidableEq

/-- Body of a `PUT /api/metadata/:fileId` request: any subset of fields may be
present (`some`); fields outside the whitelist - in particular fileId and
userId - may also be sent, but the route never reads them. -/
structure MetadataUpdateReq where
  fileId : Option String := none
  userId : Option String := none
  filename : Option String := none
  mimeType : Option String := none
  size : Option Int := none
  folderId : Option (Option String) := none
  isPublic : Option Bool := none
  s3Key : Option String := none
  s3Bucket : Option String := none
  currentVersion : Option Nat := none
  versions : Option (List VersionMeta) := none
  deriving Repr, DecidableEq

/-- Translation of `PUT /api/metadata/:fileId` (`metadataRoutes.js`): the
update expression always sets updatedAt, sets each whitelisted field that is
present in the request (filename, mimeType, size, folderId, isPublic, s3Key,
s3Bucket, currentVersion, versions), and sets filenameLower to the lowercased
filename whenever filename is present; the DynamoDB UpdateCommand leaves
every attribute not named in the expression - in particular fileId, userId
and createdAt - untouched. -/
def applyMetadataUpdate (rec : MetadataRecord) (req : MetadataUpdateReq)
    (now : String) : MetadataRecord :=
  { rec with
    updatedAt := now
    filename := req.filename.getD rec.filename
    filenameLower := (req.filename.map String.toLower).getD rec.filenameLower
    mimeType := req.mimeType.getD rec.mimeType
    size := req.size.getD rec.size
    folderId := req.folderId.getD rec.folderId
    isPublic := req.isPublic.getD rec.isPublic
    s3Key := req.s3Key.getD rec.s3Key
    s3Bucket := req.s3Bucket.getD rec.s3Bucket
    currentVersion := req.currentVersion.getD rec.currentVersion
    versions := req.versions.getD rec.versions }

/-- C10: the generic metadata update modifies only the whitelisted fields
actually present in the request, plus updatedAt, and filenameLower when
filename is supplied; the record's fileId and userId (ownership) are never
changed - even if the request body carries those fields - createdAt is kept,
and every whitelisted field absent from the request keeps its prior value
while a present field takes the requested value. -/
theorem C10_metadata_update_frame (rec : MetadataRecord) (req : MetadataUpdateReq)
    (now : String) :
    (applyMetadataUpdate rec req now).fileId = rec.fileId ∧
    (applyMetadataUpdate rec req now).userId = rec.userId ∧
    (applyMetadataUpdate rec req now).createdAt = rec.createdAt ∧
    (applyMetadataUpdate rec req now).updatedAt = now ∧
    (req.filename = none → (applyMetadataUpdate rec req now).filename = rec.filename ∧
      (applyMetadataUpdate rec req now).filenameLower = rec.filenameLower) ∧
    (∀ fn, req.filename = some fn → (applyMetadataUpdate rec req now).filename = fn ∧
      (applyMetadataUpdate rec req now).filenameLower = fn.toLower) ∧
    (req.mimeType = none → (applyMetadataUpdate rec req now).mimeType = rec.mimeType) ∧
    (∀ v, req.mimeType = some v → (applyMetadataUpdate rec req now).mimeType = v) ∧
    (req.size = none → (applyMetadataUpdate rec req now).size = rec.size) ∧
    (∀ v, req.size = some v → (applyMetadataUpdate rec req now).size = v) ∧
    (req.folderId = none → (applyMetadataUpdate rec req now).folderId = rec.folderId) ∧
    (∀ v, req.folderId = some v → (applyMetadataUpdate rec req now).folderId = v) ∧
    (req.isPublic = none → (applyMetadataUpdate rec req now).isPublic = rec.isPublic) ∧
    (∀ v, req.isPublic = some v → (applyMetadataUpdate rec req now).isPublic = v) ∧
    (req.s3Key = none → (applyMetadataUpdate rec req now).s3Key = rec.s3Key) ∧
    (∀ v, req.s3Key = some v → (applyMetadataUpdate rec req now).s3Key = v) ∧
    (req.s3Bucket = none → (applyMetadataUpdate rec req now).s3Bucket = rec.s3Bucket) ∧
    (∀ v, req.s3Bucket = some v → (applyMetadataUpdate rec req now).s3Bucket = v) ∧
    (req.currentVersion = none →
      (applyMetadataUpdate rec req now).currentVersion = rec.currentVersion) ∧
    (∀ v, req.currentVersion = some v →
      (applyMetadataUpdate rec req now).currentVersion = v) ∧
    (req.versions = none → (applyMetadataUpdate rec req now).versions = rec.versions) ∧
    (∀ v, req.versions = some v → (applyMetadataUpdate rec req now).versions = v) := by
  refine ⟨rfl, rfl, rfl, rfl, ?_, ?_, ?_, ?_, ?_, ?_, ?_, ?_, ?_, ?_, ?_, ?_, ?_, ?_,
    ?_, ?_, ?_, ?_⟩ <;>
    first
      | (intro h
         exact ⟨by simp [applyMetadataUpdate, h], by simp [applyMetadataUpdate, h]⟩)
      | (intro v h
         exact ⟨by simp [applyMetadataUpdate, h], by simp [applyMetadataUpdate, h]⟩)
      | (intro h
         simp [applyMetadataUpdate, h])
      | (intro v h
         simp [applyMetadataUpdate, h])

/-- Witness for C10: a request carrying only a new filename (and a spoofed
userId, which is ignored) changes filename, filenameLower and updatedAt and
nothing else. -/
theorem C10_metadata_update_frame_witness :
    (applyMetadataUpdate
      { fileId := "f1", userId := "u1", filename := "A.TXT", filenameLower := "a.txt",
        mimeType := "t", size := 1, folderId := none, isPublic := false, s3Key := "k",
        s3Bucket := "b", currentVersion := 1, versions := [], createdAt := "c",
        updatedAt := "d" }
      { userId := some "intruder", filename := some "B.TXT" } "now").userId = "u1" ∧
    (applyMetadataUpdate
      { fileId := "f1", userId := "u1", filename := "A.TXT", filenameLower := "a.txt",
        mimeType := "t", size := 1, folderId := none, isPublic := false, s3Key := "k",
        s3Bucket := "b", currentVersion := 1, versions := [], createdAt := "c",
        updatedAt := "d" }
      { userId := some "intruder", filename := some "B.TXT" } "now").filenameLower =
        "B.TXT".toLower :=
  ⟨(C10_metadata_update_frame
      { fileId := "f1", userId := "u1", filename := "A.TXT", filenameLower := "a.txt",
        mimeType := "t", size := 1, folderId := none, isPublic := false, s3Key := "k",
        s3Bucket := "b", currentVersion := 1, versions := [], createdAt := "c",
        updatedAt := "d" }
      { userId := some "intruder", filename := some "B.TXT" } "now").2.1,
   ((C10_metadata_update_frame
      { fileId := "f1", userId := "u1", filename := "A.TXT", filenameLower := "a.txt",
        mimeType := "t", size := 1, folderId := none, isPublic := false, s3Key := "k",
        s3Bucket := "b", currentVersion := 1, versions := [], createdAt := "c",
        updatedAt := "d" }
      { userId := some "intruder", filename := some "B.TXT" } "now").2.2.2.2.2.1 "B.TXT"
      rfl).2⟩
